import Mathlib

/-!
Verification of the gpak archive library (`gpak.py`) and the patching
orchestrator (`patch_gpak.py`) of the mewgenics-uk repository.

Modelling conventions:
* A byte stream is a `List Nat` (each element a byte value `0..255`).
* Python `str` entry names are modelled by their UTF-8 byte sequences
  (`List Nat`).  UTF-8 decoding is injective and preserves the code-point
  order used by Python string comparison, so equality and `sorted` order on
  names coincide with equality and lexicographic order on their bytes.
* `struct.unpack` on fewer bytes than the format needs raises
  `struct.error`; `bytes.decode("utf-8")` raises `UnicodeDecodeError` on
  invalid UTF-8.  These are the only exceptions `Gpak.open` can raise, and
  are modelled by the inductive `OpenError`.
* `file.read(n)` on a buffered reader returns `min n remaining` bytes
  (short at end of stream, never raising).
-/

namespace Gpakv

/-- Decidable equality for `Except` results. -/
instance {ε α : Type} [DecidableEq ε] [DecidableEq α] :
    DecidableEq (Except ε α) := fun a b =>
  match a, b with
  | .error e1, .error e2 =>
    if h : e1 = e2 then .isTrue (by rw [h]) else .isFalse (by simp [h])
  | .error _, .ok _ => .isFalse (by simp)
  | .ok _, .error _ => .isFalse (by simp)
  | .ok v1, .ok v2 =>
    if h : v1 = v2 then .isTrue (by rw [h]) else .isFalse (by simp [h])

abbrev Bytes := List Nat

/-- Value of a byte list interpreted as a little-endian unsigned integer. -/
def leValue : Bytes → Nat
  | [] => 0
  | b :: rest => b + 256 * leValue rest

/-- Model of `struct.unpack("<…", file.read(w))`: read `w` bytes from the stream; if
fewer than `w` bytes are available `struct.unpack` raises `struct.error`
(modelled as `none`); otherwise return the little-endian value and the rest
of the stream. -/
def unpackLE (w : Nat) (s : Bytes) : Option (Nat × Bytes) :=
  if (s.take w).length = w then some (leValue (s.take w), s.drop w) else none

/-- Model of `struct.pack("<…", n)`: the `w` little-endian bytes of `n`.
(`struct.pack` raises for `n ≥ 2^(8*w)`; every theorem that serialises
carries that bound as a hypothesis.) -/
def packLE : Nat → Nat → Bytes
  | 0, _ => []
  | w + 1, n => n % 256 :: packLE w (n / 256)

/-- A UTF-8 continuation byte `0x80..0xBF`. -/
def isContByte (b : Nat) : Bool := 0x80 ≤ b && b ≤ 0xBF

/-- Strict UTF-8 validity of a byte sequence, exactly what CPython's
`bytes.decode("utf-8")` accepts: no overlong forms, no surrogates, no code
points above U+10FFFF. -/
def validUtf8 : Bytes → Bool
  | [] => true
  | b :: rest =>
    if b ≤ 0x7F then validUtf8 rest
    else if b < 0xC2 then false
    else if b ≤ 0xDF then
      match rest with
      | c1 :: r => isContByte c1 && validUtf8 r
      | [] => false
    else if b ≤ 0xEF then
      match rest with
      | c1 :: c2 :: r =>
        (if b = 0xE0 then decide (0xA0 ≤ c1 ∧ c1 ≤ 0xBF)
         else if b = 0xED then decide (0x80 ≤ c1 ∧ c1 ≤ 0x9F)
         else isContByte c1) && isContByte c2 && validUtf8 r
      | _ => false
    else if b ≤ 0xF4 then
      match rest with
      | c1 :: c2 :: c3 :: r =>
        (if b = 0xF0 then decide (0x90 ≤ c1 ∧ c1 ≤ 0xBF)
         else if b = 0xF4 then decide (0x80 ≤ c1 ∧ c1 ≤ 0x8F)
         else isContByte c1) && isContByte c2 && isContByte c3 && validUtf8 r
      | _ => false
    else false

/-- Model of `gpak.GpakEntry`: name (as UTF-8 bytes), declared size, absolute offset
of the entry's data in the stream. -/
structure GpakEntry where
  name : Bytes
  size : Nat
  offset : Nat
deriving Repr, DecidableEq

/-- The exceptions that can escape `Gpak.open`. -/
inductive OpenError where
  | structError
  | unicodeDecodeError
deriving Repr, DecidableEq

/-- The directory-reading loop of `Gpak.open` (lines 31–35): `n` times, read
a 2-byte name length, then `file.read(name_length)` — which returns the
available bytes, possibly fewer — decode as UTF-8, then a 4-byte size.
Returns the `(name, size)` records and the unconsumed rest of the stream. -/
def readDirectory : Nat → Bytes → Except OpenError (List (Bytes × Nat) × Bytes)
  | 0, s => .ok ([], s)
  | n + 1, s =>
    match unpackLE 2 s with
    | none => .error .structError
    | some (nameLength, s1) =>
      if validUtf8 (s1.take nameLength) then
        match unpackLE 4 (s1.drop nameLength) with
        | none => .error .structError
        | some (fileSize, s2) =>
          match readDirectory n s2 with
          | .error e => .error e
          | .ok (dir, rest) => .ok ((s1.take nameLength, fileSize) :: dir, rest)
      else .error .unicodeDecodeError

/-- The header-and-directory phase of `Gpak.open` (lines 28–37): read the
4-byte entry count, then the directory; `data_start = file.tell()` is the
number of bytes consumed so far. -/
def gpakOpenD (s : Bytes) : Except OpenError (List (Bytes × Nat) × Nat) :=
  match unpackLE 4 s with
  | .none => .error .structError
  | .some (entryCount, s1) =>
    match readDirectory entryCount s1 with
    | .error e => .error e
    | .ok (dir, rest) => .ok (dir, s.length - rest.length)

/-- The offset-assignment loop of `Gpak.open` (lines 39–42): consecutive
offsets starting at `data_start`, each advanced by the entry's size. -/
def assignOffsets (offset : Nat) : List (Bytes × Nat) → List GpakEntry
  | [] => []
  | (name, fileSize) :: rest =>
    ⟨name, fileSize, offset⟩ :: assignOffsets (offset + fileSize) rest

/-- Model of `gpak.Gpak`: the underlying stream (the dataclass holds the open file)
and the entry list. -/
structure Gpak where
  file : Bytes
  entries : List GpakEntry
deriving Repr, DecidableEq

/-- Model of `Gpak.open` (lines 24–44). -/
def gpakOpen (s : Bytes) : Except OpenError Gpak :=
  match gpakOpenD s with
  | .error e => .error e
  | .ok (dir, dataStart) => .ok ⟨s, assignOffsets dataStart dir⟩

/-- Model of `file.seek(pos)` followed by `file.read(n)`: the `min n remaining`
bytes starting at `pos`. -/
def fileRead (s : Bytes) (pos n : Nat) : Bytes := (s.drop pos).take n

/-- Model of `Gpak.read_entry` (lines 46–48): seek to the entry's offset and read
`entry.size` bytes (`read` returns fewer if the stream is short). -/
def Gpak.readEntry (g : Gpak) (e : GpakEntry) : Bytes :=
  fileRead g.file e.offset e.size

/-- The search loop of `Gpak.find` (lines 50–54): return at the first entry
whose name matches, `none` if the loop finishes. -/
def findLoop (name : Bytes) : List GpakEntry → Option GpakEntry
  | [] => none
  | e :: rest => if e.name = name then some e else findLoop name rest

/-- Model of `Gpak.find` (lines 50–54). -/
def Gpak.find (g : Gpak) (name : Bytes) : Option GpakEntry :=
  findLoop name g.entries

/-- Constant `gpak.COPY_CHUNK`. -/
def COPY_CHUNK : Nat := 8 * 1024 * 1024

/-- Model of `gpak._stream_copy` (lines 109–116): copy `size` bytes in chunks from
the already-positioned source, breaking early when a read returns nothing.
Returns the bytes written to `dst`. -/
def streamCopy (src : Bytes) (size : Nat) : Bytes :=
  if size = 0 then []
  else
    if (src.take (min size COPY_CHUNK)).length = 0 then []
    else
      src.take (min size COPY_CHUNK)
        ++ streamCopy (src.drop (src.take (min size COPY_CHUNK)).length)
          (size - (src.take (min size COPY_CHUNK)).length)
termination_by size
decreasing_by
  simp only [List.length_take] at *
  omega

/-- A replacement value (`bytes | Path`).  A `Path`'s size is obtained by
`stat()` once while writing the directory (`dirSize`) and again while
copying the data (`copySize`); `content` is what reading the file yields at
copy time.  For a file that does not change between the two phases,
`dirSize = copySize = content.length`. -/
inductive RepValue where
  | bytes (b : Bytes)
  | path (dirSize : Nat) (copySize : Nat) (content : Bytes)
deriving Repr, DecidableEq

/-- Model of `gpak._replacement_size` (lines 95–98): `stat().st_size` for a `Path`
(directory-writing phase), `len(value)` for bytes. -/
def replacementSize : RepValue → Nat
  | .bytes b => b.length
  | .path dirSize _ _ => dirSize

/-- Model of `gpak._write_replacement` (lines 101–106): stream-copy
`stat().st_size` bytes (copy-time stat) from the opened `Path`, or write
the bytes value directly.  Returns the bytes written to `dst`. -/
def writeReplacement : RepValue → Bytes
  | .bytes b => b
  | .path _ copySize content => streamCopy content copySize

/-- A replacement value whose two `stat()` calls agree and whose content is
fully available at copy time: vacuously true for a bytes value, and for a
`Path` value exactly the "file does not change between size resolution and
the chunked copy" condition. -/
def RepValue.stable : RepValue → Prop
  | .bytes _ => True
  | .path dirSize copySize content => dirSize = copySize ∧ copySize ≤ content.length

/-- The `replacements` dict: association list with (assumed distinct) keys
in insertion order. -/
abbrev Replacements := List (Bytes × RepValue)

/-- Dict lookup. -/
def lookupRep (repl : Replacements) (name : Bytes) : Option RepValue :=
  match repl with
  | [] => none
  | (k, v) :: rest => if k = name then some v else lookupRep rest name

/-- Membership test `entry.name in replacements`. -/
def hasKey (repl : Replacements) (name : Bytes) : Bool :=
  (lookupRep repl name).isSome

/-- Model of `Gpak.patch` lines 61–66: `replaced_indices` collects the indices of
entries whose name is a key of `replacements`, and `kept` is the entries at
the remaining indices — equivalently, the entries whose name is not a key,
in original order. -/
def keptEntries (entries : List GpakEntry) (repl : Replacements) : List GpakEntry :=
  entries.filter (fun e => !hasKey repl e.name)

/-- Lexicographic order on byte sequences.  Python's `sorted` on the `str`
keys compares code points; on the UTF-8 byte encodings this is exactly
bytewise lexicographic order. -/
def lexLe : Bytes → Bytes → Bool
  | [], _ => true
  | _ :: _, [] => false
  | a :: as, b :: bs =>
    if a < b then true else if b < a then false else lexLe as bs

/-- Insertion of a name into a lexicographically sorted list of names. -/
def insertName (x : Bytes) : List Bytes → List Bytes
  | [] => [x]
  | y :: ys => if lexLe y x then y :: insertName x ys else x :: y :: ys

/-- Insertion sort by `lexLe`.  On distinct keys (a dict cannot hold
duplicates) every comparison sort agrees, so this models Python's
`sorted`. -/
def sortNames : List Bytes → List Bytes
  | [] => []
  | x :: xs => insertName x (sortNames xs)

/-- Model of `new_names = sorted(replacements)` (line 67): the dict keys sorted
lexicographically. -/
def sortedKeys (repl : Replacements) : List Bytes :=
  sortNames (repl.map Prod.fst)

/-- One directory record as written by `Gpak.patch` (lines 73–84): 2-byte
name length, name bytes, 4-byte size. -/
def dirRecord (name : Bytes) (size : Nat) : Bytes :=
  packLE 2 name.length ++ name ++ packLE 4 size

/-- The data section written by `Gpak.patch` (lines 86–92): kept entries
copied from the source stream, then the replacements, in directory order.
(The lookup's default is never reached: `sortedKeys` produces keys of
`repl`.) -/
def Gpak.patchData (g : Gpak) (repl : Replacements) : Bytes :=
  ((keptEntries g.entries repl).map
      (fun e => streamCopy (g.file.drop e.offset) e.size)).flatten
    ++ ((sortedKeys repl).map
      (fun n => writeReplacement ((lookupRep repl n).getD (.bytes [])))).flatten

/-- Everything `Gpak.patch` (lines 56–92) writes to `dst`: the 4-byte total
count, the directory (kept old entries, then all replacements), then the
data section in the same order. -/
def Gpak.patchBytes (g : Gpak) (repl : Replacements) : Bytes :=
  packLE 4 ((keptEntries g.entries repl).length + (sortedKeys repl).length)
    ++ ((keptEntries g.entries repl).map (fun e => dirRecord e.name e.size)).flatten
    ++ ((sortedKeys repl).map
      (fun n => dirRecord n (replacementSize ((lookupRep repl n).getD (.bytes []))))).flatten
    ++ g.patchData repl

/-- The value the `Gpak.patch` call returns to its caller: the function is
annotated `-> list[str]` but its body contains no return statement, so
every call evaluates to `None`. -/
def Gpak.patchReturn : Option (List Bytes) := none

/-- Modelled from the spec: the contract `patch(archive, replacements,
sink) -> list of replaced names` — the replacement keys that matched the
name of an existing entry of the source archive.  (`gpak.py` itself never
builds this list; `patch_gpak.py` line 84 recomputes it at the call site.) -/
def specReplacedNames (entries : List GpakEntry) (repl : Replacements) : List Bytes :=
  (repl.map Prod.fst).filter (fun k => entries.any (fun e => e.name = k))

/-! ### `patch_gpak.main` (lines 63–99)

The orchestrator touches three paths derived from `gpak_path`: the target
itself, `gpak_path.with_suffix(".gpak.bak")` and
`gpak_path.with_suffix(".gpak.tmp")`.  We model the filesystem as the
contents of those three files (`none` = the file does not exist; `main`
has already checked that the target exists). -/

structure FS where
  target : Bytes
  backup : Option Bytes
  tmp : Option Bytes
deriving Repr, DecidableEq

/-- Outcome of the body of the `with` block (lines 79–82): `Gpak.open` plus
`Gpak.patch` writing into the freshly created tmp file.  Either it
completes with the full output bytes, or an exception is raised after some
prefix of the output was already written. -/
inductive PatchRun where
  | ok (out : Bytes)
  | raises (written : Bytes)
deriving Repr, DecidableEq

/-- The backup step (lines 64–71): with backups enabled, if no backup file
exists copy the target verbatim to the backup path; an existing backup is
left alone. -/
def backupStep (fs : FS) (noBackup : Bool) : FS :=
  if noBackup then fs
  else
    match fs.backup with
    | some _ => fs
    | none => { fs with backup := some fs.target }

/-- Line 74: `src_path = backup_path if backup_path.exists() else gpak_path`. -/
def chooseSrc (fs : FS) : Bytes :=
  match fs.backup with
  | some b => b
  | none => fs.target

/-- Model of `patch_gpak.main`, lines 63–99 (after the argument and existence
checks).  `run` abstracts the patch step on the chosen source bytes;
`swapFails` is whether `tmp_path.replace(gpak_path)` raises.  On an
exception inside the `try`, the handler unlinks the tmp file and
re-raises: the result is `Except.error` carrying the filesystem left
behind.  On success the tmp file is renamed onto the target in one
operation. -/
def mainModel (fs : FS) (noBackup : Bool) (run : Bytes → PatchRun)
    (swapFails : Bool) : Except FS FS :=
  let fs1 := backupStep fs noBackup
  match run (chooseSrc fs1) with
  | .raises _ => .error { fs1 with tmp := none }
  | .ok out =>
    if swapFails then .error { fs1 with tmp := none }
    else .ok { fs1 with target := out, tmp := none }

/-! ### Concrete test fixtures -/

/-- UTF-8 bytes of `"a.csv"`. -/
def exNameA : Bytes := [97, 46, 99, 115, 118]

/-- UTF-8 bytes of `"b.csv"`. -/
def exNameB : Bytes := [98, 46, 99, 115, 118]

/-- UTF-8 bytes of `"c.csv"`. -/
def exNameC : Bytes := [99, 46, 99, 115, 118]

/-- The example source archive of the spec: entries `a.csv` (10 bytes of
`'A'`) and `b.csv` (20 bytes of `'B'`).  Directory: count 2, then the two
records; data starts at 4 + (2+5+4) + (2+5+4) = 26. -/
def exArchiveBytes : Bytes :=
  packLE 4 2
    ++ dirRecord exNameA 10 ++ dirRecord exNameB 20
    ++ List.replicate 10 65 ++ List.replicate 20 66

/-- The example replacement mapping: `{b.csv: 'X'*5, c.csv: 'Y'*8}`. -/
def exRepl : Replacements :=
  [(exNameB, .bytes (List.replicate 5 88)), (exNameC, .bytes (List.replicate 8 89))]

/-- The example archive, opened. -/
def exGpak : Gpak :=
  ⟨exArchiveBytes,
   [⟨exNameA, 10, 26⟩, ⟨exNameB, 20, 36⟩]⟩

/-- An archive whose directory declares a 20-byte entry but whose stream
holds only 10 data bytes (truncated source). -/
def exTruncBytes : Bytes :=
  packLE 4 1 ++ dirRecord exNameA 20 ++ List.replicate 10 65

/-- The truncated archive, opened (open never checks the data region). -/
def exTruncGpak : Gpak :=
  ⟨exTruncBytes, [⟨exNameA, 20, 15⟩]⟩

/-- A stream whose directory declares a 100-byte entry with no data bytes
at all. -/
def exNoDataBytes : Bytes := packLE 4 1 ++ dirRecord exNameA 100

/-- An archive with two entries named `a.csv` (duplicate names). -/
def exDupGpak : Gpak :=
  ⟨[], [⟨exNameA, 1, 8⟩, ⟨exNameA, 2, 9⟩]⟩

/-- A patch step that succeeds and writes the single byte `9`. -/
def exRunOk : Bytes → PatchRun := fun _ => .ok [9]

/-- A patch step that raises before writing anything. -/
def exRunFail : Bytes → PatchRun := fun _ => .raises []

/-! ## Helper lemmas -/

theorem packLE_length (w n : Nat) : (packLE w n).length = w := by
  induction w generalizing n with
  | zero => rfl
  | succ w ih => simp [packLE, ih]

theorem leValue_packLE (w n : Nat) (h : n < 256 ^ w) :
    leValue (packLE w n) = n := by
  induction w generalizing n with
  | zero => simp at h; simp [packLE, leValue, h]
  | succ w ih =>
    have h2 : n / 256 < 256 ^ w := by
      rw [Nat.div_lt_iff_lt_mul (by norm_num)]
      calc n < 256 ^ (w + 1) := h
        _ = 256 ^ w * 256 := by ring
    simp only [packLE, leValue, ih _ h2]
    omega

theorem packLE_lt (w n : Nat) : ∀ b ∈ packLE w n, b < 256 := by
  induction w generalizing n with
  | zero => simp [packLE]
  | succ w ih =>
    simp only [packLE, List.mem_cons]
    rintro b (rfl | hb)
    · omega
    · exact ih _ b hb

theorem unpackLE_of_append (w : Nat) (bs rest : Bytes) (hlen : bs.length = w) :
    unpackLE w (bs ++ rest) = some (leValue bs, rest) := by
  subst hlen
  simp [unpackLE, List.take_left, List.drop_left]

theorem unpackLE_packLE (w n : Nat) (rest : Bytes) (h : n < 256 ^ w) :
    unpackLE w (packLE w n ++ rest) = some (n, rest) := by
  rw [unpackLE_of_append w _ rest (packLE_length w n), leValue_packLE w n h]

theorem packLE_leValue (w : Nat) (bs : Bytes) (hlen : bs.length = w)
    (hlt : ∀ b ∈ bs, b < 256) : packLE w (leValue bs) = bs := by
  induction w generalizing bs with
  | zero =>
    have hnil : bs = [] := List.eq_nil_of_length_eq_zero hlen
    subst hnil
    rfl
  | succ w ih =>
    match bs with
    | [] => simp at hlen
    | b :: bs =>
      have hb : b < 256 := hlt b (by simp)
      have hval : (b + 256 * leValue bs) % 256 = b := by omega
      have hdiv : (b + 256 * leValue bs) / 256 = leValue bs := by omega
      simp only [leValue, packLE, hval, hdiv, List.cons.injEq, true_and]
      exact ih bs (by simpa using hlen) (fun x hx => hlt x (by simp [hx]))

theorem leValue_lt (bs : Bytes) (hlt : ∀ b ∈ bs, b < 256) :
    leValue bs < 256 ^ bs.length := by
  induction bs with
  | nil => simp [leValue]
  | cons b bs ih =>
    have hb : b < 256 := hlt b (by simp)
    have := ih (fun x hx => hlt x (by simp [hx]))
    simp only [leValue, List.length_cons, pow_succ]
    calc b + 256 * leValue bs
        < 256 + 256 * leValue bs := by omega
      _ = 256 * (leValue bs + 1) := by ring
      _ ≤ 256 * 256 ^ bs.length := by
          exact Nat.mul_le_mul_left 256 (by omega)
      _ = 256 ^ bs.length * 256 := by ring

theorem streamCopy_eq_take (size : Nat) (src : Bytes) :
    streamCopy src size = src.take size := by
  induction size using Nat.strong_induction_on generalizing src with
  | _ size ih =>
    rw [streamCopy]
    split
    · simp [*]
    · rename_i hsz
      split
      · rename_i hchunk
        simp only [List.length_take] at hchunk
        have hC : COPY_CHUNK = 8388608 := rfl
        have hlen0 : src.length = 0 := by omega
        rw [List.eq_nil_of_length_eq_zero hlen0]
        simp
      · rename_i hchunk
        set m := min size COPY_CHUNK with hm
        have hmpos : 0 < m := by
          have hC : COPY_CHUNK = 8388608 := rfl
          omega
        have hkdef : (src.take m).length = min m src.length := List.length_take m src
        set k := (src.take m).length with hk
        have hkpos : 0 < k := Nat.pos_of_ne_zero hchunk
        have hksize : k ≤ size := by omega
        have hrec := ih (size - k) (by omega) (src.drop k)
        rw [hrec]
        rcases Nat.le_total src.length m with hle | hle
        · -- the whole source fits into the first chunk
          have htake : src.take m = src := List.take_of_length_le hle
          have hkeq : k = src.length := by rw [hk, htake]
          rw [htake, hkeq, List.drop_length]
          have hall : src.take size = src :=
            List.take_of_length_le (by omega)
          simp [hall]
        · -- full chunk of m bytes
          have hkeq : k = m := by omega
          rw [hkeq]
          have hsplit : src.take size = src.take m ++ (src.drop m).take (size - m) := by
            conv_lhs => rw [show size = m + (size - m) from by omega]
            exact List.take_add src m (size - m)
          rw [hsplit]

theorem lexLe_trans (a b c : Bytes) (hab : lexLe a b = true)
    (hbc : lexLe b c = true) : lexLe a c = true := by
  induction a generalizing b c with
  | nil => rfl
  | cons x xs ih =>
    match b, c with
    | [], _ => simp [lexLe] at hab
    | _ :: _, [] => simp [lexLe] at hbc
    | y :: ys, z :: zs =>
      simp only [lexLe] at hab hbc ⊢
      by_cases hxy : x < y
      · by_cases hyz : y < z
        · simp [show x < z from by omega]
        · simp only [if_neg hyz] at hbc
          by_cases hzy : z < y
          · simp [hzy] at hbc
          · simp [show x < z from by omega]
      · simp only [if_neg hxy] at hab
        by_cases hyx : y < x
        · simp [hyx] at hab
        · simp only [if_neg hyx] at hab
          by_cases hyz : y < z
          · simp [show x < z from by omega]
          · simp only [if_neg hyz] at hbc
            by_cases hzy : z < y
            · simp [hzy] at hbc
            · simp only [if_neg hzy] at hbc
              have hxz : ¬x < z := by omega
              have hzx : ¬z < x := by omega
              simp only [if_neg hxz, if_neg hzx]
              exact ih ys zs hab hbc

theorem lexLe_total (a b : Bytes) : (lexLe a b || lexLe b a) = true := by
  induction a generalizing b with
  | nil => simp [lexLe]
  | cons x xs ih =>
    match b with
    | [] => simp [lexLe]
    | y :: ys =>
      simp only [lexLe]
      by_cases hxy : x < y
      · simp [hxy]
      · by_cases hyx : y < x
        · simp [hyx]
        · simpa [hxy, hyx] using ih ys

theorem lexLe_antisymm (a b : Bytes) (hab : lexLe a b = true)
    (hba : lexLe b a = true) : a = b := by
  induction a generalizing b with
  | nil =>
    match b with
    | [] => rfl
    | y :: ys => simp [lexLe] at hba
  | cons x xs ih =>
    match b with
    | [] => simp [lexLe] at hab
    | y :: ys =>
      simp only [lexLe] at hab hba
      by_cases hxy : x < y
      · simp [show ¬y < x from by omega, hxy] at hba
      · by_cases hyx : y < x
        · simp [hyx, show ¬x < y from hxy] at hab
        · have hx : x = y := by omega
          simp only [if_neg hxy, if_neg hyx] at hab hba
          rw [hx, ih ys hab hba]

/-- Parse-after-print for the directory loop: reading back `recs.length`
records from their serialized form leaves exactly `rest`. -/
theorem readDirectory_of_records (recs : List (Bytes × Nat)) (rest : Bytes)
    (h : ∀ r ∈ recs, validUtf8 r.1 = true ∧ r.1.length < 65536 ∧ r.2 < 4294967296) :
    readDirectory recs.length
        ((recs.map (fun r => dirRecord r.1 r.2)).flatten ++ rest)
      = .ok (recs, rest) := by
  induction recs with
  | nil => simp [readDirectory]
  | cons r recs ih =>
    obtain ⟨hv, hn, hs⟩ := h r (by simp)
    obtain ⟨name, size⟩ := r
    simp only at hv hn hs
    simp only [List.map_cons, List.flatten_cons, List.length_cons, dirRecord,
      List.append_assoc]
    rw [readDirectory,
      unpackLE_packLE 2 name.length _ (by norm_num at hn ⊢; omega)]
    simp only []
    simp only [List.take_left, List.drop_left]
    rw [if_pos hv,
      unpackLE_packLE 4 size _ (by norm_num at hs ⊢; omega)]
    simp only []
    have ih' := ih (fun x hx => h x (by simp [hx]))
    simp only [dirRecord, List.append_assoc] at ih'
    rw [ih']

/-- Print-after-parse for the directory loop: a successful read of `n`
records from a byte-valued stream consumed exactly the serialization of
those records, and the records are in the ranges the format can express. -/
theorem records_of_readDirectory (n : Nat) (s : Bytes) (dir : List (Bytes × Nat))
    (rest : Bytes) (hbytes : ∀ b ∈ s, b < 256)
    (hok : readDirectory n s = .ok (dir, rest)) :
    s = (dir.map (fun r => dirRecord r.1 r.2)).flatten ++ rest
      ∧ dir.length = n
      ∧ (∀ r ∈ dir, validUtf8 r.1 = true ∧ r.1.length < 65536 ∧ r.2 < 4294967296
          ∧ ∀ b ∈ r.1, b < 256) := by
  induction n generalizing s dir rest with
  | zero =>
    simp only [readDirectory, Except.ok.injEq, Prod.mk.injEq] at hok
    obtain ⟨h1, h2⟩ := hok
    simp [← h1, ← h2]
  | succ n ih =>
    rw [readDirectory] at hok
    match hu2 : unpackLE 2 s with
    | none => rw [hu2] at hok; exact absurd hok (by simp)
    | some (nameLength, s1) =>
      rw [hu2] at hok
      simp only [] at hok
      simp only [unpackLE, Option.ite_none_right_eq_some, Option.some.injEq,
        Prod.mk.injEq] at hu2
      obtain ⟨hlen2, hval2, hs1⟩ := hu2
      by_cases hv : validUtf8 (s1.take nameLength) = true
      · rw [if_pos hv] at hok
        match hu4 : unpackLE 4 (s1.drop nameLength) with
        | none => rw [hu4] at hok; exact absurd hok (by simp)
        | some (fileSize, s2) =>
          rw [hu4] at hok
          simp only [] at hok
          simp only [unpackLE, Option.ite_none_right_eq_some, Option.some.injEq,
            Prod.mk.injEq] at hu4
          obtain ⟨hlen4, hval4, hs2⟩ := hu4
          match hrd : readDirectory n s2 with
          | .error e => rw [hrd] at hok; exact absurd hok (by simp)
          | .ok (dir', rest') =>
            rw [hrd] at hok
            simp only [Except.ok.injEq, Prod.mk.injEq] at hok
            obtain ⟨hdir, hrest⟩ := hok
            have hs1bytes : ∀ b ∈ s1, b < 256 := by
              intro b hb
              exact hbytes b (by rw [← hs1] at hb; exact List.mem_of_mem_drop hb)
            have hs2bytes : ∀ b ∈ s2, b < 256 := by
              intro b hb
              refine hs1bytes b ?_
              rw [← hs2] at hb
              exact List.mem_of_mem_drop (List.mem_of_mem_drop hb)
            obtain ⟨hser, hcount, hranges⟩ := ih s2 dir' rest' hs2bytes hrd
            -- the name read was complete: a short read would leave nothing
            -- for the 4-byte size field
            have hfull : nameLength ≤ s1.length := by
              by_contra hlt
              push_neg at hlt
              have hnil : s1.drop nameLength = [] := by
                apply List.eq_nil_of_length_eq_zero
                simp [List.length_drop]
                omega
              rw [hnil] at hlen4
              simp at hlen4
            have hnamelen : (s1.take nameLength).length = nameLength := by
              simp [List.length_take]
              omega
            have e2 : packLE 2 nameLength = s.take 2 := by
              rw [← hval2]
              exact packLE_leValue 2 (s.take 2) hlen2
                (fun b hb => hbytes b (List.mem_of_mem_take hb))
            have e4 : packLE 4 fileSize = (s1.drop nameLength).take 4 := by
              rw [← hval4]
              exact packLE_leValue 4 _ hlen4
                (fun b hb => hs1bytes b
                  (List.mem_of_mem_drop (List.mem_of_mem_take hb)))
            subst hdir hrest
            refine ⟨?_, by simp [hcount], ?_⟩
            · -- reassemble the consumed bytes
              have erec : dirRecord (s1.take nameLength) fileSize
                  = s.take 2 ++ (s1.take nameLength ++ (s1.drop nameLength).take 4) := by
                simp only [dirRecord, hnamelen, e2, e4, List.append_assoc]
              simp only [List.map_cons, List.flatten_cons, erec, List.append_assoc]
              rw [← hser, ← hs2, List.take_append_drop, List.take_append_drop,
                ← hs1, List.take_append_drop]
            · intro r hr
              rcases List.mem_cons.mp hr with rfl | hr'
              · refine ⟨hv, ?_, ?_, ?_⟩
                · have hlt := leValue_lt (s.take 2)
                    (fun b hb => hbytes b (List.mem_of_mem_take hb))
                  rw [hlen2, hval2] at hlt
                  norm_num at hlt
                  simpa [hnamelen] using hlt
                · have hlt := leValue_lt ((s1.drop nameLength).take 4)
                    (fun b hb => hs1bytes b
                      (List.mem_of_mem_drop (List.mem_of_mem_take hb)))
                  rw [hlen4, hval4] at hlt
                  norm_num at hlt
                  exact hlt
                · intro b hb
                  exact hs1bytes b (List.mem_of_mem_take hb)
              · exact hranges r hr'
      · rw [if_neg hv] at hok
        exact absurd hok (by simp)

theorem assignOffsets_length (off : Nat) (dir : List (Bytes × Nat)) :
    (assignOffsets off dir).length = dir.length := by
  induction dir generalizing off with
  | nil => rfl
  | cons r rest ih =>
    obtain ⟨name, size⟩ := r
    simp [assignOffsets, ih]

theorem assignOffsets_map_pair (off : Nat) (dir : List (Bytes × Nat)) :
    (assignOffsets off dir).map (fun e => (e.name, e.size)) = dir := by
  induction dir generalizing off with
  | nil => rfl
  | cons r rest ih =>
    obtain ⟨name, size⟩ := r
    simp [assignOffsets, ih]

theorem assignOffsets_get (dir : List (Bytes × Nat)) (off i : Nat)
    (h : i < (assignOffsets off dir).length) :
    ((assignOffsets off dir).get ⟨i, h⟩).offset
      = off + (((assignOffsets off dir).take i).map GpakEntry.size).sum := by
  induction dir generalizing off i with
  | nil => simp [assignOffsets] at h
  | cons r rest ih =>
    obtain ⟨name, size⟩ := r
    match i with
    | 0 => simp [assignOffsets]
    | i + 1 =>
      simp only [assignOffsets] at h ⊢
      rw [List.get_cons_succ, ih (off + size) i]
      simp only [List.take_succ_cons, List.map_cons, List.sum_cons]
      omega

theorem assignOffsets_data (s : Bytes) (dir : List (Bytes × Nat)) (off : Nat) :
    ((assignOffsets off dir).map
        (fun e => streamCopy (s.drop e.offset) e.size)).flatten
      = (s.drop off).take ((dir.map Prod.snd).sum) := by
  induction dir generalizing off with
  | nil => simp [assignOffsets]
  | cons r rest ih =>
    obtain ⟨name, size⟩ := r
    simp only [assignOffsets, List.map_cons, List.flatten_cons, List.sum_cons]
    rw [ih (off + size), streamCopy_eq_take, List.take_add, List.drop_drop]

theorem lookupRep_mem (repl : Replacements) (n : Bytes) (v : RepValue)
    (h : lookupRep repl n = some v) : (n, v) ∈ repl := by
  induction repl with
  | nil => simp [lookupRep] at h
  | cons r rest ih =>
    obtain ⟨k, w⟩ := r
    simp only [lookupRep] at h
    by_cases hk : k = n
    · rw [if_pos hk] at h
      simp only [Option.some.injEq] at h
      subst hk h
      simp
    · rw [if_neg hk] at h
      exact List.mem_cons_of_mem _ (ih h)

theorem lookupRep_isSome_of_mem_keys (repl : Replacements) (n : Bytes)
    (h : n ∈ repl.map Prod.fst) : (lookupRep repl n).isSome := by
  induction repl with
  | nil => simp at h
  | cons r rest ih =>
    obtain ⟨k, w⟩ := r
    simp only [List.map_cons, List.mem_cons] at h
    simp only [lookupRep]
    by_cases hk : k = n
    · simp [hk]
    · rcases h with h | h
      · exact absurd h.symm hk
      · simp only [if_neg hk]
        exact ih h

theorem keptEntries_nil (entries : List GpakEntry) :
    keptEntries entries [] = entries := by
  simp [keptEntries, hasKey, lookupRep]

theorem insertName_perm (x : Bytes) (l : List Bytes) :
    (insertName x l).Perm (x :: l) := by
  induction l with
  | nil => exact List.Perm.refl _
  | cons y ys ih =>
    by_cases h : lexLe y x = true
    · simp only [insertName, if_pos h]
      exact (ih.cons y).trans (List.Perm.swap x y ys)
    · simp only [insertName, if_neg h]
      exact List.Perm.refl _

theorem sortNames_perm (l : List Bytes) : (sortNames l).Perm l := by
  induction l with
  | nil => exact List.Perm.refl _
  | cons x xs ih =>
    exact (insertName_perm x (sortNames xs)).trans (ih.cons x)

theorem lexLe_of_not_lexLe (x y : Bytes) (h : ¬lexLe y x = true) :
    lexLe x y = true := by
  have htot := lexLe_total x y
  revert htot h
  cases lexLe x y <;> cases lexLe y x <;> simp

theorem insertName_sorted (x : Bytes) (l : List Bytes)
    (h : List.Pairwise (fun a b => lexLe a b = true) l) :
    List.Pairwise (fun a b => lexLe a b = true) (insertName x l) := by
  induction l with
  | nil => simp [insertName]
  | cons y ys ih =>
    rcases List.pairwise_cons.mp h with ⟨hy, hys⟩
    by_cases hxy : lexLe y x = true
    · simp only [insertName, if_pos hxy]
      refine List.pairwise_cons.mpr ⟨?_, ih hys⟩
      intro b hb
      rcases List.mem_cons.mp ((insertName_perm x ys).mem_iff.mp hb) with rfl | h1
      · exact hxy
      · exact hy b h1
    · simp only [insertName, if_neg hxy]
      have hxy' : lexLe x y = true := lexLe_of_not_lexLe x y hxy
      refine List.pairwise_cons.mpr ⟨?_, h⟩
      intro b hb
      rcases List.mem_cons.mp hb with rfl | hb'
      · exact hxy'
      · exact lexLe_trans x y b hxy' (hy b hb')

theorem sortNames_sorted (l : List Bytes) :
    List.Pairwise (fun a b => lexLe a b = true) (sortNames l) := by
  induction l with
  | nil => simp [sortNames]
  | cons x xs ih => exact insertName_sorted x (sortNames xs) ih

theorem sortedKeys_perm (repl : Replacements) :
    (sortedKeys repl).Perm (repl.map Prod.fst) :=
  sortNames_perm (repl.map Prod.fst)

theorem sortedKeys_sorted (repl : Replacements) :
    List.Pairwise (fun a b => lexLe a b = true) (sortedKeys repl) :=
  sortNames_sorted (repl.map Prod.fst)

/-- Inversion of a successful header-and-directory parse of a byte-valued
stream: the consumed prefix is exactly the 4-byte count followed by the
serialized records, `data_start` lies inside the stream, and all records
fit the format's ranges. -/
theorem gpakOpenD_inversion (s : Bytes) (dir : List (Bytes × Nat)) (d : Nat)
    (hbytes : ∀ b ∈ s, b < 256) (hok : gpakOpenD s = .ok (dir, d)) :
    4 ≤ s.length
      ∧ d = 4 + ((dir.map (fun r => dirRecord r.1 r.2)).flatten).length
      ∧ d ≤ s.length
      ∧ s.take 4 = packLE 4 dir.length
      ∧ s.take d = packLE 4 dir.length ++ (dir.map (fun r => dirRecord r.1 r.2)).flatten
      ∧ dir.length < 4294967296
      ∧ (∀ r ∈ dir, validUtf8 r.1 = true ∧ r.1.length < 65536 ∧ r.2 < 4294967296
          ∧ ∀ b ∈ r.1, b < 256) := by
  rw [gpakOpenD] at hok
  match hu : unpackLE 4 s with
  | none => rw [hu] at hok; exact absurd hok (by simp)
  | some (entryCount, s1) =>
    rw [hu] at hok
    simp only [] at hok
    simp only [unpackLE, Option.ite_none_right_eq_some, Option.some.injEq,
      Prod.mk.injEq] at hu
    obtain ⟨hlen4, hval4, hs1⟩ := hu
    match hrd : readDirectory entryCount s1 with
    | .error e => rw [hrd] at hok; exact absurd hok (by simp)
    | .ok (dir', rest) =>
      rw [hrd] at hok
      simp only [Except.ok.injEq, Prod.mk.injEq] at hok
      obtain ⟨hdir, hd⟩ := hok
      rw [hdir] at hrd
      have hs1bytes : ∀ b ∈ s1, b < 256 := by
        intro b hb
        rw [← hs1] at hb
        exact hbytes b (List.mem_of_mem_drop hb)
      obtain ⟨hser, hcount, hranges⟩ :=
        records_of_readDirectory entryCount s1 dir rest hs1bytes hrd
      have h4le : 4 ≤ s.length := by
        have := List.length_take 4 s
        omega
      have hs1len : s1.length = s.length - 4 := by
        rw [← hs1]
        simp [List.length_drop]
      have hflat : s1.length
          = ((dir.map (fun r => dirRecord r.1 r.2)).flatten).length + rest.length := by
        rw [hser]
        simp [List.length_append]
      have hdval : d = 4 + ((dir.map (fun r => dirRecord r.1 r.2)).flatten).length := by
        omega
      have hdle : d ≤ s.length := by omega
      have hcountlt : dir.length < 4294967296 := by
        have hlt := leValue_lt (s.take 4) (fun b hb => hbytes b (List.mem_of_mem_take hb))
        rw [hlen4, hval4] at hlt
        norm_num at hlt
        omega
      have htake4 : s.take 4 = packLE 4 dir.length := by
        rw [hcount, ← hval4]
        exact (packLE_leValue 4 (s.take 4) hlen4
          (fun b hb => hbytes b (List.mem_of_mem_take hb))).symm
      have htaked : s.take d
          = packLE 4 dir.length ++ (dir.map (fun r => dirRecord r.1 r.2)).flatten := by
        have hsplit : s = s.take 4 ++ s1 := by
          rw [← hs1, List.take_append_drop]
        have hlenpre : (s.take 4 ++ (dir.map (fun r => dirRecord r.1 r.2)).flatten).length
            = d := by
          simp only [List.length_append, List.length_take]
          omega
        calc s.take d
            = ((s.take 4 ++ (dir.map (fun r => dirRecord r.1 r.2)).flatten) ++ rest).take d := by
              rw [List.append_assoc, ← hser, ← hsplit]
          _ = s.take 4 ++ (dir.map (fun r => dirRecord r.1 r.2)).flatten := by
              rw [← hlenpre, List.take_left]
          _ = packLE 4 dir.length ++ (dir.map (fun r => dirRecord r.1 r.2)).flatten := by
              rw [htake4]
      exact ⟨h4le, hdval, hdle, htake4, htaked, hcountlt, hranges⟩

theorem findLoop_first (name : Bytes) (entries : List GpakEntry) (e : GpakEntry)
    (h : findLoop name entries = some e) :
    e.name = name
      ∧ ∃ i, ∃ (hi : i < entries.length),
          entries.get ⟨i, hi⟩ = e
            ∧ ∀ j (hj : j < i), (entries.get ⟨j, by omega⟩).name ≠ name := by
  induction entries with
  | nil => simp [findLoop] at h
  | cons a rest ih =>
    simp only [findLoop] at h
    by_cases ha : a.name = name
    · rw [if_pos ha] at h
      simp only [Option.some.injEq] at h
      subst h
      exact ⟨ha, 0, by simp, rfl, by omega⟩
    · rw [if_neg ha] at h
      obtain ⟨hname, i, hi, hget, hfirst⟩ := ih h
      refine ⟨hname, i + 1, by simpa using hi, by simpa using hget, ?_⟩
      intro j hj
      match j with
      | 0 => simpa using ha
      | j + 1 =>
        have := hfirst j (by omega)
        simpa using this

/-! ## Claim theorems -/

/-- C3: for every archive returned by `open` — hence also for every archive
produced by `patch` when re-opened — the entry offsets satisfy
`entry[0].offset = data_start` (the stream position immediately after the
directory, the second component of `gpakOpenD`) and
`entry[i].offset = data_start + Σ entry[j].size for j < i`. -/
theorem open_offsets_are_prefix_sums (s : Bytes) (g : Gpak)
    (hok : gpakOpen s = .ok g) :
    ∃ dataStart,
      gpakOpenD s = .ok (g.entries.map (fun e => (e.name, e.size)), dataStart)
        ∧ ∀ i (h : i < g.entries.length),
            (g.entries.get ⟨i, h⟩).offset
              = dataStart + ((g.entries.take i).map GpakEntry.size).sum := by
  rw [gpakOpen] at hok
  match hD : gpakOpenD s with
  | .error e => rw [hD] at hok; exact absurd hok (by simp)
  | .ok (dir, d) =>
    rw [hD] at hok
    simp only [Except.ok.injEq] at hok
    subst hok
    refine ⟨d, ?_, ?_⟩
    · simp only []
      rw [assignOffsets_map_pair]
    · intro i h
      exact assignOffsets_get dir d i h

/-- C3 (witness): the two-entry example archive satisfies the offset
invariant with `data_start = 26`. -/
theorem open_offsets_are_prefix_sums_witness :
    ∃ dataStart,
      gpakOpenD exArchiveBytes
          = .ok (exGpak.entries.map (fun e => (e.name, e.size)), dataStart)
        ∧ ∀ i (h : i < exGpak.entries.length),
            (exGpak.entries.get ⟨i, h⟩).offset
              = dataStart + ((exGpak.entries.take i).map GpakEntry.size).sum :=
  open_offsets_are_prefix_sums exArchiveBytes exGpak (by decide)

/-- C6 (counterexample): in an archive whose directory holds two entries
named `a.csv` — at indices 0 and 1 with different sizes and offsets —
`find` returns the occurrence at index 0, not the last occurrence, so
last-occurrence-wins fails. -/
theorem find_returns_first_not_last :
    exDupGpak.entries = [⟨exNameA, 1, 8⟩, ⟨exNameA, 2, 9⟩]
      ∧ Gpak.find exDupGpak exNameA = some ⟨exNameA, 1, 8⟩
      ∧ Gpak.find exDupGpak exNameA ≠ some ⟨exNameA, 2, 9⟩ := by decide

/-- C6 (amended): `find` consistently resolves duplicate names to the
FIRST occurrence in directory order: whatever entry it returns matches the
requested name and sits at an index strictly before which no entry
matches. -/
theorem find_first_occurrence (g : Gpak) (name : Bytes) (e : GpakEntry)
    (h : g.find name = some e) :
    e.name = name
      ∧ ∃ i, ∃ (hi : i < g.entries.length),
          g.entries.get ⟨i, hi⟩ = e
            ∧ ∀ j (hj : j < i), (g.entries.get ⟨j, by omega⟩).name ≠ name :=
  findLoop_first name g.entries e h

/-- C6 (witness): instantiating the first-occurrence property on the
duplicate-name archive. -/
theorem find_first_occurrence_witness :
    (⟨exNameA, 1, 8⟩ : GpakEntry).name = exNameA
      ∧ ∃ i, ∃ (hi : i < exDupGpak.entries.length),
          exDupGpak.entries.get ⟨i, hi⟩ = ⟨exNameA, 1, 8⟩
            ∧ ∀ j (hj : j < i),
                (exDupGpak.entries.get ⟨j, by omega⟩).name ≠ exNameA :=
  find_first_occurrence exDupGpak exNameA ⟨exNameA, 1, 8⟩ (by decide)

/-- C8 (counterexample): entry `a.csv` of the truncated archive declares
20 bytes but only 10 are available past its offset; `read_entry` silently
returns the 10 available bytes — it does not return exactly `entry.size`
bytes and no `TruncatedEntryError` exists anywhere in the code to be
raised. -/
theorem read_entry_truncated_counterexample :
    exTruncGpak.entries = [⟨exNameA, 20, 15⟩]
      ∧ (exTruncGpak.readEntry ⟨exNameA, 20, 15⟩).length = 10
      ∧ (10 : Nat) ≠ (20 : Nat) := by decide

/-- C8 (amended): `read_entry` seeks to the entry's offset and returns
`min(entry.size, bytes available past the offset)` bytes — exactly
`entry.size` whenever the stream holds enough — and never raises. -/
theorem read_entry_returns_available (g : Gpak) (e : GpakEntry) :
    (g.readEntry e).length = min e.size (g.file.length - e.offset)
      ∧ (e.offset + e.size ≤ g.file.length → (g.readEntry e).length = e.size) := by
  constructor
  · simp [Gpak.readEntry, fileRead, List.length_take, List.length_drop]
  · intro h
    simp only [Gpak.readEntry, fileRead, List.length_take, List.length_drop]
    omega

/-- C8 (witness): reading the intact first entry of the example archive
yields exactly its 10 declared bytes. -/
theorem read_entry_returns_available_witness :
    26 + 10 ≤ exGpak.file.length
      ∧ (exGpak.readEntry ⟨exNameA, 10, 26⟩).length = 10 :=
  ⟨by decide, (read_entry_returns_available exGpak ⟨exNameA, 10, 26⟩).2 (by decide)⟩

/-- C9 (counterexample): a stream whose directory declares a single
100-byte entry but which ends right after the directory (15 bytes in
total, data region 0 of 100 bytes available) is opened successfully — no
`TruncatedArchiveError` (which does not exist in the code) and no failure
of any kind. -/
theorem open_truncated_data_counterexample :
    gpakOpen exNoDataBytes = .ok ⟨exNoDataBytes, [⟨exNameA, 100, 15⟩]⟩
      ∧ exNoDataBytes.length = 15 := by decide

/-- C9 (amended): `open` reads only the 4-byte count and the directory.
It fails with `struct.error` when a count/name-length/size field has fewer
bytes than needed and with `UnicodeDecodeError` on an invalid UTF-8 name
(the only two failure kinds), but the data region is never examined: the
result of a successful parse depends only on the first `data_start` bytes,
so any data region — including one smaller than the directory declares —
yields the same archive. -/
theorem open_reads_only_directory (s t : Bytes) (dir : List (Bytes × Nat))
    (d : Nat) (hbytes : ∀ b ∈ s, b < 256) (hok : gpakOpenD s = .ok (dir, d)) :
    gpakOpenD (s.take d ++ t) = .ok (dir, d) := by
  obtain ⟨h4, hd4, hdle, htake4, htaked, hcnt, hranges⟩ :=
    gpakOpenD_inversion s dir d hbytes hok
  rw [htaked, gpakOpenD, List.append_assoc,
    unpackLE_packLE 4 dir.length _ (by norm_num; omega)]
  simp only []
  rw [readDirectory_of_records dir t
    (fun r hr => ⟨(hranges r hr).1, (hranges r hr).2.1, (hranges r hr).2.2.1⟩)]
  simp only [Except.ok.injEq, Prod.mk.injEq, true_and]
  rw [List.length_append, List.length_append, packLE_length]
  omega

/-- C9 (witness): re-parsing the directory of the truncated-data stream
with an arbitrary 3-byte data region gives the same directory and
`data_start`. -/
theorem open_reads_only_directory_witness :
    (∀ b ∈ exNoDataBytes, b < 256)
      ∧ gpakOpenD (exNoDataBytes.take 15 ++ [1, 2, 3])
          = .ok ([(exNameA, 100)], 15) :=
  ⟨by decide,
   open_reads_only_directory exNoDataBytes [1, 2, 3] [(exNameA, 100)] 15
     (by decide) (by decide)⟩

/-- C2 (counterexample): patching the truncated archive with an empty
replacement mapping writes a data section of 10 bytes while the directory
it wrote declares 20: the byte count does NOT always equal the sum of the
written sizes — a kept entry whose source bytes run short breaks it. -/
theorem patch_data_length_counterexample :
    (Gpak.patchData exTruncGpak []).length
      ≠ ((keptEntries exTruncGpak.entries []).map GpakEntry.size).sum := by
  simp only [Gpak.patchData, streamCopy_eq_take]
  decide

/-- C2 (amended): the data-section byte count equals the sum of the sizes
recorded in the written directory provided every kept entry's declared
bytes are available in the source stream and every `Path` replacement is
stable (copy-time stat equals directory-time stat and the content is fully
available); a truncated kept source or a file changed between size
resolution and the chunked copy makes the written data section silently
shorter than declared. -/
theorem patch_data_length (g : Gpak) (repl : Replacements)
    (hkept : ∀ e ∈ keptEntries g.entries repl, e.offset + e.size ≤ g.file.length)
    (hrepl : ∀ r ∈ repl, RepValue.stable r.2) :
    (g.patchData repl).length
      = ((keptEntries g.entries repl).map GpakEntry.size).sum
        + ((sortedKeys repl).map
            (fun n => replacementSize ((lookupRep repl n).getD (.bytes [])))).sum := by
  simp only [Gpak.patchData, List.length_append, List.length_flatten, List.map_map]
  congr 1
  · apply congrArg List.sum
    apply List.map_congr_left
    intro e he
    have h := hkept e he
    simp only [Function.comp_apply, streamCopy_eq_take, List.length_take,
      List.length_drop]
    omega
  · apply congrArg List.sum
    apply List.map_congr_left
    intro n hn
    simp only [Function.comp_apply]
    have hkeys : n ∈ repl.map Prod.fst := (sortedKeys_perm repl).mem_iff.mp hn
    have hsome := lookupRep_isSome_of_mem_keys repl n hkeys
    match hv : lookupRep repl n with
    | none => rw [hv] at hsome; simp at hsome
    | some v =>
      have hst := hrepl (n, v) (lookupRep_mem repl n v hv)
      simp only [Option.getD_some]
      match v with
      | .bytes b => rfl
      | .path ds cs content =>
        obtain ⟨h1, h2⟩ := hst
        simp only [writeReplacement, replacementSize, streamCopy_eq_take,
          List.length_take]
        omega

/-- C2 (witness): on the intact example archive with the byte-valued
example replacements, the data section's length matches the directory. -/
theorem patch_data_length_witness :
    (∀ e ∈ keptEntries exGpak.entries exRepl,
        e.offset + e.size ≤ exGpak.file.length)
      ∧ (Gpak.patchData exGpak exRepl).length
          = ((keptEntries exGpak.entries exRepl).map GpakEntry.size).sum
            + ((sortedKeys exRepl).map
                (fun n => replacementSize ((lookupRep exRepl n).getD (.bytes [])))).sum :=
  ⟨by decide, patch_data_length exGpak exRepl (by decide)
    (by intro r hr; simp [exRepl] at hr; rcases hr with rfl | rfl <;> trivial)⟩

/-- C7 (code bug): `Gpak.patch` is annotated `-> list[str]` and the
contract says it returns the list of replaced names, but its body contains
no return statement, so every call returns `None` — even on the spec's own
example, whose replaced-name list `["b.csv"]` is nonempty. -/
theorem patch_returns_none :
    Gpak.patchReturn = none
      ∧ specReplacedNames exGpak.entries exRepl = [exNameB] :=
  ⟨rfl, by decide⟩

/-- C4 (counterexample): with no pre-existing backup and backups enabled,
a failure inside the patch step still leaves a newly created backup file
behind — the backup path held nothing before the call and holds a copy of
the target after it — so "the bytes of the backup file are exactly as they
were before the call" does not hold on every failure (target and temp file
behave as claimed). -/
theorem main_failure_creates_backup_counterexample :
    mainModel ⟨[7], none, none⟩ false exRunFail false
        = .error ⟨[7], some [7], none⟩
      ∧ FS.backup ⟨[7], none, none⟩ ≠ FS.backup ⟨[7], some [7], none⟩ := by decide

/-- C4 (amended): on success the target holds exactly the fully written
temp-file content installed by the single rename and the temp file is
gone; on any failure the exception propagates, the temp file is removed,
the target is unchanged and a previously existing backup is unchanged —
but the backup step that precedes the failure may have created a new
backup file. -/
theorem main_atomic_swap_and_cleanup (fs : FS) (noBackup : Bool)
    (run : Bytes → PatchRun) (swapFails : Bool) :
    (∀ fs', mainModel fs noBackup run swapFails = .ok fs' →
        fs'.tmp = none
          ∧ run (chooseSrc (backupStep fs noBackup)) = .ok fs'.target
          ∧ fs'.backup = (backupStep fs noBackup).backup)
      ∧ (∀ fs', mainModel fs noBackup run swapFails = .error fs' →
          fs'.tmp = none ∧ fs'.target = fs.target
            ∧ ∀ b, fs.backup = some b → fs'.backup = some b) := by
  have hbt : (backupStep fs noBackup).target = fs.target := by
    cases noBackup
    · cases hfb : fs.backup <;> simp [backupStep, hfb]
    · simp [backupStep]
  have hbb : ∀ b, fs.backup = some b → (backupStep fs noBackup).backup = some b := by
    intro b hfb
    cases noBackup <;> simp [backupStep, hfb]
  simp only [mainModel]
  cases hrun : run (chooseSrc (backupStep fs noBackup)) with
  | raises w =>
    constructor
    · intro fs' h
      simp at h
    · intro fs' h
      simp only [Except.error.injEq] at h
      subst h
      exact ⟨rfl, hbt, hbb⟩
  | ok out =>
    cases swapFails
    · constructor
      · intro fs' h
        simp at h
        subst h
        exact ⟨rfl, rfl, rfl⟩
      · intro fs' h
        simp at h
    · constructor
      · intro fs' h
        simp at h
      · intro fs' h
        simp at h
        subst h
        exact ⟨rfl, hbt, hbb⟩

/-- C4 (witness): a successful run on a backup-less filesystem installs
the patch output `[9]` as the target with the temp file gone. -/
theorem main_atomic_swap_and_cleanup_witness :
    FS.tmp ⟨[9], some [7], none⟩ = none
      ∧ exRunOk (chooseSrc (backupStep ⟨[7], none, none⟩ false))
          = .ok (FS.target ⟨[9], some [7], none⟩)
      ∧ FS.backup ⟨[9], some [7], none⟩
          = (backupStep ⟨[7], none, none⟩ false).backup :=
  (main_atomic_swap_and_cleanup ⟨[7], none, none⟩ false exRunOk false).1
    ⟨[9], some [7], none⟩ (by decide)

/-- C5: with backups enabled, a missing backup is first created as a
verbatim copy of the target, an existing backup is never overwritten, the
patch source is the backup whenever one exists and the target otherwise —
always the pristine `fs.backup.getD fs.target` — and after a successful
call a repeated invocation chooses those very same source bytes, so
re-patching never compounds onto a previously patched result. -/
theorem main_backup_rebase (fs : FS) (run : Bytes → PatchRun)
    (swapFails : Bool) :
    (fs.backup = none → (backupStep fs false).backup = some fs.target)
      ∧ (∀ b, fs.backup = some b → (backupStep fs false).backup = some b)
      ∧ chooseSrc (backupStep fs false) = fs.backup.getD fs.target
      ∧ ∀ fs', mainModel fs false run swapFails = .ok fs' →
          chooseSrc (backupStep fs' false) = chooseSrc (backupStep fs false) := by
  refine ⟨?_, ?_, ?_, ?_⟩
  · intro hfb
    simp [backupStep, hfb]
  · intro b hfb
    simp [backupStep, hfb]
  · cases hfb : fs.backup <;> simp [backupStep, chooseSrc, hfb]
  · intro fs' h
    simp only [mainModel] at h
    cases hrun : run (chooseSrc (backupStep fs false)) with
    | raises w => rw [hrun] at h; simp at h
    | ok out =>
      rw [hrun] at h
      cases swapFails
      · simp at h
        subst h
        cases hfb : fs.backup <;>
          simp [backupStep, chooseSrc, hfb]
      · simp at h

/-- C5 (witness): after a successful first call on a backup-less
filesystem, a second invocation selects the same (pristine) source. -/
theorem main_backup_rebase_witness :
    chooseSrc (backupStep ⟨[9], some [7], none⟩ false)
      = chooseSrc (backupStep ⟨[7], none, none⟩ false) :=
  (main_backup_rebase ⟨[7], none, none⟩ exRunOk false).2.2.2
    ⟨[9], some [7], none⟩ (by decide)

theorem sortedKeys_nil : sortedKeys [] = [] := rfl

theorem dirRecords_flatten_length (L : List (Bytes × Nat)) :
    ((L.map (fun r => dirRecord r.1 r.2)).flatten).length
      = (L.map (fun r => 6 + r.1.length)).sum := by
  induction L with
  | nil => rfl
  | cons r rest ih =>
    obtain ⟨name, size⟩ := r
    simp only [List.map_cons, List.flatten_cons, List.length_append,
      List.sum_cons, ih]
    simp only [dirRecord, List.length_append, packLE_length]
    omega

/-- C10: for a well-formed source archive — a byte-valued stream whose
directory parses and whose length is exactly `data_start` plus the sum of
the declared sizes — `patch` with an empty replacement mapping writes a
byte-for-byte identical copy of the source archive. -/
theorem patch_empty_is_identity (s : Bytes) (dir : List (Bytes × Nat))
    (d : Nat) (g : Gpak)
    (hbytes : ∀ b ∈ s, b < 256)
    (hok : gpakOpenD s = .ok (dir, d))
    (hlen : s.length = d + (dir.map Prod.snd).sum)
    (hg : gpakOpen s = .ok g) :
    g.patchBytes [] = s := by
  rw [gpakOpen, hok] at hg
  simp only [Except.ok.injEq] at hg
  subst hg
  obtain ⟨h4, hd4, hdle, htake4, htaked, hcnt, hranges⟩ :=
    gpakOpenD_inversion s dir d hbytes hok
  have hmapdir : (assignOffsets d dir).map (fun e => dirRecord e.name e.size)
      = dir.map (fun r => dirRecord r.1 r.2) := by
    conv_rhs => rw [← assignOffsets_map_pair d dir]
    rw [List.map_map]
    rfl
  have hdata : ((assignOffsets d dir).map
        (fun e => streamCopy (s.drop e.offset) e.size)).flatten = s.drop d := by
    rw [assignOffsets_data]
    have hsum : (dir.map Prod.snd).sum = (s.drop d).length := by
      simp only [List.length_drop]
      omega
    rw [hsum, List.take_length]
  simp only [Gpak.patchBytes, Gpak.patchData, keptEntries_nil, sortedKeys_nil,
    List.map_nil, List.flatten_nil, List.append_nil, List.length_nil,
    Nat.add_zero]
  have hpre : s.take 4 ++ (dir.map (fun r => dirRecord r.1 r.2)).flatten = s.take d := by
    rw [htake4]
    exact htaked.symm
  rw [assignOffsets_length, hmapdir, hdata, ← htake4]
  conv_rhs => rw [← List.take_append_drop d s, ← hpre]

/-- C10 (witness): patching the example archive with no replacements
reproduces its bytes exactly. -/
theorem patch_empty_is_identity_witness :
    Gpak.patchBytes exGpak [] = exArchiveBytes :=
  patch_empty_is_identity exArchiveBytes [(exNameA, 10), (exNameB, 20)] 26
    exGpak (by decide) (by decide) (by decide) (by decide)

/-- C1: `patch` writes a stream whose 4-byte header count is
`|kept| + |replacements|` and whose directory, read back by the parser, is
the kept source entries (names not keys of the mapping, in original
relative order, with their original sizes) followed by all keys of the
mapping in lexicographic order with their resolved sizes; the bytes after
the directory are exactly the data pieces in that same order (kept copies,
then replacements). -/
theorem patch_output_structure (g : Gpak) (repl : Replacements)
    (hkept : ∀ e ∈ keptEntries g.entries repl,
        validUtf8 e.name = true ∧ e.name.length < 65536 ∧ e.size < 4294967296)
    (hrepl : ∀ r ∈ repl, validUtf8 r.1 = true ∧ r.1.length < 65536
        ∧ replacementSize r.2 < 4294967296)
    (hcount : (keptEntries g.entries repl).length + repl.length < 4294967296) :
    leValue ((g.patchBytes repl).take 4)
        = (keptEntries g.entries repl).length + repl.length
      ∧ gpakOpenD (g.patchBytes repl)
          = .ok ((keptEntries g.entries repl).map (fun e => (e.name, e.size))
                ++ (sortedKeys repl).map (fun n =>
                    (n, replacementSize ((lookupRep repl n).getD (.bytes [])))),
              4 + (((keptEntries g.entries repl).map
                      (fun e => 6 + e.name.length)).sum
                + ((sortedKeys repl).map (fun n => 6 + n.length)).sum))
      ∧ (g.patchBytes repl).drop
            (4 + (((keptEntries g.entries repl).map
                    (fun e => 6 + e.name.length)).sum
              + ((sortedKeys repl).map (fun n => 6 + n.length)).sum))
          = g.patchData repl
      ∧ (sortedKeys repl).Perm (repl.map Prod.fst)
      ∧ List.Pairwise (fun a b => lexLe a b = true) (sortedKeys repl) := by
  have hnames : ∀ n ∈ sortedKeys repl,
      validUtf8 n = true ∧ n.length < 65536
        ∧ replacementSize ((lookupRep repl n).getD (.bytes [])) < 4294967296 := by
    intro n hn
    have hkeys : n ∈ repl.map Prod.fst := (sortedKeys_perm repl).mem_iff.mp hn
    have hsome := lookupRep_isSome_of_mem_keys repl n hkeys
    match hv : lookupRep repl n with
    | none => rw [hv] at hsome; simp at hsome
    | some v =>
      have hr := hrepl (n, v) (lookupRep_mem repl n v hv)
      simp only [Option.getD_some]
      exact ⟨hr.1, hr.2.1, hr.2.2⟩
  have hnlen : (sortedKeys repl).length = repl.length :=
    (sortedKeys_perm repl).length_eq.trans (List.length_map repl Prod.fst)
  have hranges : ∀ r ∈ (keptEntries g.entries repl).map (fun e => (e.name, e.size))
        ++ (sortedKeys repl).map (fun n =>
            (n, replacementSize ((lookupRep repl n).getD (.bytes [])))),
      validUtf8 r.1 = true ∧ r.1.length < 65536 ∧ r.2 < 4294967296 := by
    intro r hr
    rcases List.mem_append.mp hr with h | h
    · obtain ⟨e, he, rfl⟩ := List.mem_map.mp h
      exact hkept e he
    · obtain ⟨n, hn, rfl⟩ := List.mem_map.mp h
      exact hnames n hn
  have hreclen : ((keptEntries g.entries repl).map (fun e => (e.name, e.size))
        ++ (sortedKeys repl).map (fun n =>
            (n, replacementSize ((lookupRep repl n).getD (.bytes []))))).length
      = (keptEntries g.entries repl).length + (sortedKeys repl).length := by
    simp [List.length_append]
  have hflat : (((keptEntries g.entries repl).map (fun e => (e.name, e.size))
        ++ (sortedKeys repl).map (fun n =>
            (n, replacementSize ((lookupRep repl n).getD (.bytes []))))).map
          (fun r => dirRecord r.1 r.2)).flatten
      = ((keptEntries g.entries repl).map
            (fun e => dirRecord e.name e.size)).flatten
        ++ ((sortedKeys repl).map (fun n =>
            dirRecord n (replacementSize ((lookupRep repl n).getD (.bytes []))))).flatten := by
    rw [List.map_append, List.flatten_append, List.map_map, List.map_map]
    rfl
  have hshape : g.patchBytes repl
      = packLE 4 ((keptEntries g.entries repl).map (fun e => (e.name, e.size))
            ++ (sortedKeys repl).map (fun n =>
                (n, replacementSize ((lookupRep repl n).getD (.bytes []))))).length
        ++ ((((keptEntries g.entries repl).map (fun e => (e.name, e.size))
            ++ (sortedKeys repl).map (fun n =>
                (n, replacementSize ((lookupRep repl n).getD (.bytes []))))).map
              (fun r => dirRecord r.1 r.2)).flatten
          ++ g.patchData repl) := by
    rw [Gpak.patchBytes, hreclen, hflat]
    simp [List.append_assoc]
  have hcnt4 : ((keptEntries g.entries repl).map (fun e => (e.name, e.size))
        ++ (sortedKeys repl).map (fun n =>
            (n, replacementSize ((lookupRep repl n).getD (.bytes []))))).length
      < 256 ^ 4 := by
    rw [hreclen, hnlen]
    norm_num
    omega
  have hdstart : 4 + ((((keptEntries g.entries repl).map (fun e => (e.name, e.size))
        ++ (sortedKeys repl).map (fun n =>
            (n, replacementSize ((lookupRep repl n).getD (.bytes []))))).map
          (fun r => dirRecord r.1 r.2)).flatten).length
      = 4 + (((keptEntries g.entries repl).map (fun e => 6 + e.name.length)).sum
          + ((sortedKeys repl).map (fun n => 6 + n.length)).sum) := by
    rw [dirRecords_flatten_length, List.map_append, List.sum_append,
      List.map_map, List.map_map]
    rfl
  refine ⟨?_, ?_, ?_, sortedKeys_perm repl, sortedKeys_sorted repl⟩
  · rw [hshape, List.take_left' (packLE_length 4 _),
      leValue_packLE _ _ hcnt4, hreclen, hnlen]
  · rw [hshape, gpakOpenD, unpackLE_packLE 4 _ _ hcnt4]
    simp only []
    rw [readDirectory_of_records _ _ (by
      intro r hr
      exact hranges r hr)]
    simp only [Except.ok.injEq, Prod.mk.injEq, true_and]
    simp only [List.length_append, packLE_length]
    rw [← hdstart]
    omega
  · rw [← hdstart, hshape, ← List.append_assoc]
    have hplen : (packLE 4 ((keptEntries g.entries repl).map
            (fun e => (e.name, e.size))
          ++ (sortedKeys repl).map (fun n =>
              (n, replacementSize ((lookupRep repl n).getD (.bytes []))))).length
        ++ (((keptEntries g.entries repl).map (fun e => (e.name, e.size))
          ++ (sortedKeys repl).map (fun n =>
              (n, replacementSize ((lookupRep repl n).getD (.bytes []))))).map
            (fun r => dirRecord r.1 r.2)).flatten).length
        = 4 + ((((keptEntries g.entries repl).map (fun e => (e.name, e.size))
          ++ (sortedKeys repl).map (fun n =>
              (n, replacementSize ((lookupRep repl n).getD (.bytes []))))).map
            (fun r => dirRecord r.1 r.2)).flatten).length := by
      rw [List.length_append, packLE_length]
    rw [← hplen, List.drop_left]

/-- C1 (witness): on the spec's example — source `a.csv` (10 bytes),
`b.csv` (20 bytes); replacements `b.csv` (5 bytes), `c.csv` (8 bytes) —
the output header count is 3, the directory reads back as
`[a.csv(10), b.csv(5), c.csv(8)]` with `data_start = 37`, and the data
section is `'A'*10 + 'X'*5 + 'Y'*8`. -/
theorem patch_output_structure_witness :
    leValue ((Gpak.patchBytes exGpak exRepl).take 4) = 3
      ∧ gpakOpenD (Gpak.patchBytes exGpak exRepl)
          = .ok ([(exNameA, 10), (exNameB, 5), (exNameC, 8)], 37)
      ∧ (Gpak.patchBytes exGpak exRepl).drop 37
          = List.replicate 10 65 ++ List.replicate 5 88 ++ List.replicate 8 89 := by
  have h := patch_output_structure exGpak exRepl (by decide) (by decide) (by decide)
  obtain ⟨h1, h2, h3, _, _⟩ := h
  refine ⟨h1.trans (by decide), h2.trans (by decide), ?_⟩
  have hd : 4 + (((keptEntries exGpak.entries exRepl).map
        (fun e => 6 + e.name.length)).sum
      + ((sortedKeys exRepl).map (fun n => 6 + n.length)).sum) = 37 := by decide
  rw [hd] at h3
  rw [h3]
  simp only [Gpak.patchData, streamCopy_eq_take]
  decide

end Gpakv
